import Mathlib

/-!
Verification of the weighted, pattern-queryable trie family from the
nyt-games-bots repository.

The development shallowly embeds:
  * the arena-indexed trie of `vocab-tree/src/trie.rs` (nodes stored in a
    flat growable table, children and parent held as indices), together
    with the stack-based depth-first traversal of
    `vocab-tree/src/traversal.rs` and the priority-queue (best-first)
    traversal of `vocab-tree/src/traversal_inorder.rs`;
  * the recursive prefix tree of `prefix-tree/src/lib.rs` with its
    three-way query result.

Rust `Vec<T>` becomes `List T`, `usize` indices become `Nat`, fallible or
panicking accesses are made explicit (out-of-range arena access and
out-of-range pattern slices surface as explicit `panic` outcomes of the
traversal step function), and iterators become fuel-indexed run functions
whose results are inspected with a three-way `RunOutcome`.
-/

set_option autoImplicit false

namespace NytGames

/-- The three-way key stored at each trie level: the root sentinel, an
interior symbol, or the terminal sentinel marking a complete sequence
(`Key` in `vocab-tree/src/trie.rs`). -/
inductive Key (K : Type) where
  | Start
  | Internal (k : K)
  | End
deriving DecidableEq, Repr

/-- A node of the arena trie (`Node` in `vocab-tree/src/trie.rs`): its key,
the aggregate `min_descendent` value, the arena indices of its children and
the arena index of its parent (`none` only at the root). -/
structure Node (K V : Type) where
  key : Key K
  min_descendent : Option V
  children : List Nat
  parent : Option Nat
deriving DecidableEq, Repr

/-- The arena trie itself (`Trie` in `vocab-tree/src/trie.rs`): a flat
table of nodes addressed by index; index 0 is the root once it exists. -/
structure Trie (K V : Type) where
  nodes : List (Node K V)
deriving DecidableEq, Repr

variable {K V : Type}

/-- `Trie::new`: the arena starts with no nodes at all. -/
def Trie.new : Trie K V := ⟨[]⟩

/-- Replace the element at position `i` by `f` of it; out-of-range indices
leave the list unchanged (all call sites use internally derived indices). -/
def listModify (l : List (Node K V)) (i : Nat) (f : Node K V → Node K V) :
    List (Node K V) :=
  match l.get? i with
  | some a => l.set i (f a)
  | none => l

/-- A default node used to totalise arena reads at internally derived
(always in range) indices. -/
def emptyNode : Node K V := ⟨Key.Start, none, [], none⟩

/-- Read the node stored at arena index `i` (`self.nodes[i]` in Rust). -/
def Trie.nodeAt (t : Trie K V) (i : Nat) : Node K V :=
  t.nodes.getD i emptyNode

/-- `Trie::get_child_index`: scan the children of `parent_index` for one
whose key equals `child_key`. -/
def Trie.get_child_index [DecidableEq K] (t : Trie K V) (parent_index : Nat)
    (child_key : Key K) : Option Nat :=
  (t.nodeAt parent_index).children.find?
    (fun i => decide (child_key = (t.nodeAt i).key))

/-- The `None` branch of `Trie::get_or_create_child_index`: append a fresh
node keyed `k` with parent `parent_index` and record it as a new child. -/
def Trie.appendChild (t : Trie K V) (parent_index : Nat) (k : Key K) :
    Trie K V :=
  ⟨listModify (t.nodes ++ [⟨k, none, [], some parent_index⟩]) parent_index
    (fun n => { n with children := n.children ++ [t.nodes.length] })⟩

/-- `Trie::get_or_create_child_index`: return the index of the child with
the given key, creating it (at index `nodes.len()`) when absent. -/
def Trie.get_or_create_child_index [DecidableEq K] (t : Trie K V)
    (parent_index : Nat) (child_key : Key K) : Nat × Trie K V :=
  match t.get_child_index parent_index child_key with
  | some index => (index, t)
  | none => (t.nodes.length, t.appendChild parent_index child_key)

/-- `Trie::update_min_descendent`, verbatim from `trie.rs`: note that the
guard `current_value < value` replaces the stored aggregate by the *larger*
of the two values. -/
def Trie.update_min_descendent [LinearOrder V] (t : Trie K V)
    (index_to_update : Nat) (value : V) : Trie K V :=
  ⟨listModify t.nodes index_to_update (fun node =>
    match node.min_descendent with
    | none => { node with min_descendent := some value }
    | some current_value =>
      if current_value < value then { node with min_descendent := some value }
      else node)⟩

/-- The walk performed by the loop body of `Trie::push`: for each key in
turn, find or create the child and update its aggregate, descending. -/
def Trie.pushAux [DecidableEq K] [LinearOrder V] (t : Trie K V)
    (current : Nat) (value : V) : List (Key K) → Trie K V
  | [] => t
  | k :: ks =>
    let p := t.get_or_create_child_index current k
    (p.2.update_min_descendent p.1 value).pushAux p.1 value ks

/-- The full key path stored for a sequence: its symbols as `Internal`
keys followed by the `End` sentinel. -/
def toKeys (s : List K) : List (Key K) :=
  s.map Key.Internal ++ [Key.End]

/-- `Trie::push`: create the root if the arena is empty, then walk the
symbols of the sequence followed by the `End` sentinel, finding or creating
each child and updating its aggregate with `value`. -/
def Trie.push [DecidableEq K] [LinearOrder V] (t : Trie K V) (keys : List K)
    (value : V) : Trie K V :=
  let t0 : Trie K V :=
    if t.nodes.isEmpty then ⟨[⟨Key.Start, none, [], none⟩]⟩ else t
  t0.pushAux 0 value (toKeys keys)

/-- The arena holding just the freshly created root (the state after
`push`'s empty-arena initialisation). -/
def rootTrie : Trie K V := ⟨[⟨Key.Start, none, [], none⟩]⟩

/-- Repeated insertion (`for (key, value) in pairs { trie.push(...) }`). -/
def Trie.pushAll [DecidableEq K] [LinearOrder V] (t : Trie K V)
    (ops : List (List K × V)) : Trie K V :=
  ops.foldl (fun t p => t.push p.1 p.2) t

/-- The walk of `Trie::get_node_index`: follow one child edge per key
starting from `current`, failing when a key has no matching child. -/
def Trie.follow [DecidableEq K] (t : Trie K V) (current : Nat) :
    List (Key K) → Option Nat
  | [] => some current
  | k :: ks =>
    match t.get_child_index current k with
    | some child_index => t.follow child_index ks
    | none => none

/-- `Trie::get_node_index`: walk from the root (index 0). -/
def Trie.get_node_index [DecidableEq K] (t : Trie K V)
    (keys : List (Key K)) : Option Nat :=
  t.follow 0 keys

/-- `Trie::get`: append the `End` sentinel to the symbols, walk from the
root, and return the aggregate stored at the node reached. -/
def Trie.get [DecidableEq K] (t : Trie K V) (keys : List K) : Option V :=
  (t.get_node_index (toKeys keys)).bind fun i => (t.nodeAt i).min_descendent

/-- A compiled pattern (`traversal.rs`): one constraint per trie depth,
`none` meaning wildcard and `some k` meaning the key must equal `k`. -/
abbrev Pattern (K : Type) := List (Option (Key K))

/-- Outcome of one `next()` call of a traversal: the iterator is finished,
the call panics slicing the pattern out of range, the call panics indexing
the arena out of range, or it yields the node at `index` leaving the given
frontier behind. -/
inductive StepResult (σ : Type) where
  | exhausted
  | panicPattern
  | panicArena
  | yield (index : Nat) (state : σ)
deriving DecidableEq, Repr

/-- One `next()` call of `TrieDfsTraversal` (`traversal.rs`): pop the top
frame, slice the pattern at `depth + 1` (a panic when out of range), push
children according to the constraint, and yield the popped node.  The head
of the list is the top of the stack, so freshly pushed children are
reversed to preserve Rust's `Vec` pop order. -/
def Trie.dfsStep [DecidableEq K] (t : Trie K V) (pattern : Option (Pattern K)) :
    List (Nat × Nat) → StepResult (List (Nat × Nat))
  | [] => .exhausted
  | (index, depth) :: rest =>
    match pattern with
    | some p =>
      if depth + 1 ≤ p.length then
        match p.drop (depth + 1) with
        | [] =>
          if index < t.nodes.length then .yield index rest else .panicArena
        | none :: _ =>
          if index < t.nodes.length then
            .yield index
              ((((t.nodeAt index).children.map (fun i => (i, depth + 1))).reverse)
                ++ rest)
          else .panicArena
        | some k :: _ =>
          if index < t.nodes.length then
            match t.get_child_index index k with
            | some child_index => .yield index ((child_index, depth + 1) :: rest)
            | none => .yield index rest
          else .panicArena
      else .panicPattern
    | none =>
      if index < t.nodes.length then
        .yield index
          ((((t.nodeAt index).children.map (fun i => (i, depth + 1))).reverse)
            ++ rest)
      else .panicArena

/-- Result of pulling a traversal to completion: it ran out of fuel, one of
its `next()` calls panicked, or it finished yielding the listed nodes. -/
inductive RunOutcome where
  | fuelOut
  | panicked
  | finished (yields : List Nat)
deriving DecidableEq, Repr

/-- Pull `TrieDfsTraversal` to completion (fuel-indexed). -/
def Trie.dfsRun [DecidableEq K] (t : Trie K V) (pattern : Option (Pattern K)) :
    Nat → List (Nat × Nat) → RunOutcome
  | 0, _ => .fuelOut
  | fuel + 1, stack =>
    match t.dfsStep pattern stack with
    | .exhausted => .finished []
    | .panicPattern => .panicked
    | .panicArena => .panicked
    | .yield i st =>
      match t.dfsRun pattern fuel st with
      | .finished l => .finished (i :: l)
      | r => r

/-- The frontier stack after `n` yielding steps of `TrieDfsTraversal`
started from the given stack (a terminal step leaves the stack as is). -/
def Trie.dfsTrace [DecidableEq K] (t : Trie K V) (pattern : Option (Pattern K)) :
    Nat → List (Nat × Nat) → List (Nat × Nat)
  | 0, stack => stack
  | n + 1, stack =>
    match t.dfsStep pattern stack with
    | .yield _ st => t.dfsTrace pattern n st
    | _ => stack

/-- `Trie::path_to_root` (fuel-indexed): repeatedly move to the parent,
collecting `Internal` keys, stopping at the root sentinel. -/
def Trie.pathToRootAux (t : Trie K V) : Nat → Nat → List K
  | 0, _ => []
  | fuel + 1, i =>
    match (t.nodeAt i).parent with
    | some parent_index =>
      match (t.nodeAt parent_index).key with
      | Key.Internal k => k :: t.pathToRootAux fuel parent_index
      | _ => []
    | none => []

/-- `Trie::path_to_root` from a node index; yields the keys leaf-to-root
as the Rust iterator does. -/
def Trie.path_to_root (t : Trie K V) (i : Nat) : List K :=
  t.pathToRootAux t.nodes.length i

/-- `Trie::iter_values_unordered` pulled to completion: run the DFS
traversal from the root, keep `End` nodes only, and report each as the
stored sequence in root order (the Rust iterator hands back the reversed
prefix; its tests reverse it exactly like this) with its aggregate. -/
def Trie.iter_values_unordered [DecidableEq K] (t : Trie K V)
    (pattern : Option (Pattern K)) (fuel : Nat) :
    Option (List (List K × Option V)) :=
  match t.dfsRun pattern fuel [(0, 0)] with
  | .finished l =>
    some (((l.filter (fun i => decide ((t.nodeAt i).key = Key.End)))).map
      (fun i => ((t.path_to_root i).reverse, (t.nodeAt i).min_descendent)))
  | _ => none

/-- A frontier entry of `DijkstraTraversal` (`traversal_inorder.rs`):
the node's aggregate (the heap orders by it through `Reverse`), the node
index, and its depth. -/
abbrev HeapItem (V : Type) := Option V × Nat × Nat

/-- Heap priority of `traversal_inorder.rs` (`Reverse(value)` first, then
index, then depth, as derived on `HeapItem`): `a` pops before `b`. -/
def itemBefore [LinearOrder V] (a b : HeapItem V) : Bool :=
  match a.1, b.1 with
  | none, some _ => true
  | some _, none => false
  | none, none => a.2.1 > b.2.1 || (a.2.1 = b.2.1 && a.2.2 > b.2.2)
  | some x, some y =>
    x < y || (x = y && (a.2.1 > b.2.1 || (a.2.1 = b.2.1 && a.2.2 > b.2.2)))

/-- Pop the maximum element of the binary heap (the item that compares
before all others), returning it and the remaining items. -/
def popBest [LinearOrder V] : List (HeapItem V) → Option (HeapItem V × List (HeapItem V))
  | [] => none
  | x :: xs =>
    match popBest xs with
    | none => some (x, [])
    | some (y, ys) => if itemBefore y x then some (y, x :: ys) else some (x, xs)

/-- One `next()` call of `DijkstraTraversal` (`traversal_inorder.rs`): pop
the best frontier node, slice the pattern at `depth + 1`, push children
(each carrying its own aggregate) according to the constraint, and yield
the popped node.  `Node::value()` is the node's aggregate
(`min_descendent`); the accessor lives in a revision of `trie.rs` not in
the tree, modelled from the spec's "priority queue ordered by each
candidate node's aggregate cost". -/
def Trie.dijkstraStep [DecidableEq K] [LinearOrder V] (t : Trie K V)
    (pattern : Option (Pattern K)) (heap : List (HeapItem V)) :
    StepResult (List (HeapItem V)) :=
  match popBest heap with
  | none => .exhausted
  | some ((_, index, depth), rest) =>
    match pattern with
    | some p =>
      if depth + 1 ≤ p.length then
        match p.drop (depth + 1) with
        | [] =>
          if index < t.nodes.length then .yield index rest else .panicArena
        | none :: _ =>
          if index < t.nodes.length then
            .yield index
              (rest ++ (t.nodeAt index).children.map
                (fun c => ((t.nodeAt c).min_descendent, c, depth + 1)))
          else .panicArena
        | some k :: _ =>
          if index < t.nodes.length then
            match t.get_child_index index k with
            | some child_index =>
              .yield index
                (rest ++ [((t.nodeAt child_index).min_descendent, child_index, depth + 1)])
            | none => .yield index rest
          else .panicArena
      else .panicPattern
    | none =>
      if index < t.nodes.length then
        .yield index
          (rest ++ (t.nodeAt index).children.map
            (fun c => ((t.nodeAt c).min_descendent, c, depth + 1)))
      else .panicArena

/-- Pull `DijkstraTraversal` to completion (fuel-indexed). -/
def Trie.dijkstraRun [DecidableEq K] [LinearOrder V] (t : Trie K V)
    (pattern : Option (Pattern K)) : Nat → List (HeapItem V) → RunOutcome
  | 0, _ => .fuelOut
  | fuel + 1, heap =>
    match t.dijkstraStep pattern heap with
    | .exhausted => .finished []
    | .panicPattern => .panicked
    | .panicArena => .panicked
    | .yield i h =>
      match t.dijkstraRun pattern fuel h with
      | .finished l => .finished (i :: l)
      | r => r

/-- The initial frontier of `DijkstraTraversal::from_root`: the root node
with its aggregate, when the arena is non-empty. -/
def Trie.dijkstraInit (t : Trie K V) : List (HeapItem V) :=
  match t.nodes.head? with
  | some root => [(root.min_descendent, 0, 0)]
  | none => []

/-- `Trie::iter_values_ordered` pulled to completion: run the best-first
traversal from the root, keep `End` nodes only, and report each stored
sequence (root order) with its aggregate. -/
def Trie.iter_values_ordered [DecidableEq K] [LinearOrder V] (t : Trie K V)
    (pattern : Option (Pattern K)) (fuel : Nat) :
    Option (List (List K × Option V)) :=
  match t.dijkstraRun pattern fuel t.dijkstraInit with
  | .finished l =>
    some (((l.filter (fun i => decide ((t.nodeAt i).key = Key.End)))).map
      (fun i => ((t.path_to_root i).reverse, (t.nodeAt i).min_descendent)))
  | _ => none

/-! ### The recursive prefix tree of `prefix-tree/src/lib.rs` -/

/-- The result of querying a prefix tree (`QueryResult` in
`prefix-tree/src/lib.rs`).  The spec calls these `Found`, `Unknown` and
`KnownPrefix` respectively. -/
inductive QueryResult (V : Type) where
  | Value (v : V)
  | NotFound
  | Prefix
deriving DecidableEq, Repr

/-- A node of the recursive prefix tree (`Node` in
`prefix-tree/src/lib.rs`): the key component leading to it (`none` only at
the root), an optional stored value, and its children. -/
inductive PNode (K V : Type) where
  | mk (prefix_component : Option K) (value : Option V)
      (children : List (PNode K V))

/-- The key component leading to this node. -/
def PNode.prefix_component : PNode K V → Option K
  | .mk c _ _ => c

/-- The value stored at this node, if any. -/
def PNode.value : PNode K V → Option V
  | .mk _ v _ => v

/-- The children of this node. -/
def PNode.childNodes : PNode K V → List (PNode K V)
  | .mk _ _ cs => cs

/-- `Node::get`: consume the key symbols one by one, descending into the
first child whose `prefix_component` matches; report the stored value, a
bare prefix, or absence. -/
def PNode.get [DecidableEq K] : PNode K V → List K → QueryResult V
  | n, [] =>
    match n.value with
    | some v => QueryResult.Value v
    | none => QueryResult.Prefix
  | n, next :: key =>
    match n.childNodes.find? (fun c => decide (c.prefix_component = some next)) with
    | some child => child.get key
    | none => QueryResult.NotFound

/-- `Node::set`: consume the key symbols, descending into the first
matching child and updating it in place, creating a fresh chain when the
next symbol has no child; store the value at the final node. -/
def PNode.set [DecidableEq K] : PNode K V → List K → V → PNode K V
  | .mk c _ cs, [], value => .mk c (some value) cs
  | .mk c v cs, next :: key, value =>
    match cs.findIdx? (fun ch => decide (ch.prefix_component = some next)) with
    | some i =>
      .mk c v (cs.modify (fun ch => ch.set key value) i)
    | none =>
      .mk c v (cs ++ [(PNode.mk (some next) none []).set key value])

/-- `PrefixTree`: a wrapper around the root node. -/
structure PrefixTree (K V : Type) where
  root : PNode K V

/-- `PrefixTree::empty`: a root with no key, no value, no children. -/
def PrefixTree.empty : PrefixTree K V := ⟨.mk none none []⟩

/-- `PrefixTree::get`. -/
def PrefixTree.get [DecidableEq K] (t : PrefixTree K V) (key : List K) :
    QueryResult V :=
  t.root.get key

/-- `PrefixTree::set`. -/
def PrefixTree.set [DecidableEq K] (t : PrefixTree K V) (key : List K)
    (value : V) : PrefixTree K V :=
  ⟨t.root.set key value⟩

/-- `StringPrefixTree`: a prefix tree over characters storing unit values
(strings modelled as lists of characters). -/
structure StringPrefixTree where
  tree : PrefixTree Char Unit

/-- `StringPrefixTree::empty`. -/
def StringPrefixTree.empty : StringPrefixTree := ⟨PrefixTree.empty⟩

/-- `StringPrefixTree::contains_prefix`: true unless the query reports
`NotFound`. -/
def StringPrefixTree.containsPrefix (t : StringPrefixTree) (key : List Char) :
    Bool :=
  match t.tree.get key with
  | QueryResult.NotFound => false
  | _ => true

/-- `StringPrefixTree::contains`: true exactly when the query reports a
stored value. -/
def StringPrefixTree.containsKey (t : StringPrefixTree) (key : List Char) :
    Bool :=
  match t.tree.get key with
  | QueryResult.Value _ => true
  | _ => false

/-- `StringPrefixTree::add`. -/
def StringPrefixTree.add (t : StringPrefixTree) (key : List Char) :
    StringPrefixTree :=
  ⟨t.tree.set key ()⟩

/-! ### Spec-side walk for the query contract

The spec describes `query` as a walk "from the root consuming exactly the
input symbols", classified afterwards.  The walk is written here from the
spec's words, to be compared with `Node::get` from the source. -/

/-- The spec's walk: consume the input symbols one by one, descending into
the matching child, failing when none exists. -/
def queryWalkSpec [DecidableEq K] : PNode K V → List K → Option (PNode K V)
  | n, [] => some n
  | n, next :: key =>
    match n.childNodes.find? (fun c => decide (c.prefix_component = some next)) with
    | some child => queryWalkSpec child key
    | none => none

/-- The spec's classification of a finished walk: a failed walk is
`NotFound` (the spec's `Unknown`); a successful walk reports the stored
value (`Found`) or, failing that, `Prefix` (the spec's `KnownPrefix`). -/
def queryClassify : Option (PNode K V) → QueryResult V
  | none => QueryResult.NotFound
  | some n =>
    match n.value with
    | some v => QueryResult.Value v
    | none => QueryResult.Prefix

/-! ### Structural invariants of arena tries built by `push`

Every trie reachable from `Trie::new` through `Trie::push` satisfies these
shape invariants: the arena is non-empty, every child index points past
its parent and into the arena, every node has at most one parent, and the
root is nobody's child. -/

/-- Shape invariants of a built arena trie. -/
structure ShapeInv (t : Trie K V) : Prop where
  pos : 0 < t.nodes.length
  asc : ∀ j x, x ∈ (t.nodeAt j).children → j < x
  bound : ∀ j x, x ∈ (t.nodeAt j).children → x < t.nodes.length
  parentUniq : ∀ x j j', x ∈ (t.nodeAt j).children → x ∈ (t.nodeAt j').children → j = j'
  noChildZero : ∀ j, 0 ∉ (t.nodeAt j).children

/-- Every non-root node of a built trie carries an aggregate (its
`min_descendent` is set at creation and never cleared). -/
def MdInv (t : Trie K V) : Prop :=
  ∀ i, 0 < i → i < t.nodes.length → ((t.nodeAt i).min_descendent).isSome = true

/-- Two arenas of the same length whose nodes agree on key, children and
parent (they may differ in aggregates only). -/
def sameShape (t t' : Trie K V) : Prop :=
  t.nodes.length = t'.nodes.length ∧
    ∀ j, (t.nodeAt j).key = (t'.nodeAt j).key ∧
      (t.nodeAt j).children = (t'.nodeAt j).children ∧
      (t.nodeAt j).parent = (t'.nodeAt j).parent

/-! ## List-level helper lemmas -/

theorem find?_congr {α : Type} (p q : α → Bool) (l : List α)
    (h : ∀ a ∈ l, p a = q a) : l.find? p = l.find? q := by
  induction l with
  | nil => rfl
  | cons a l ih =>
    cases hpa : p a with
    | true =>
      rw [List.find?_cons_of_pos _ hpa,
        List.find?_cons_of_pos _ ((h a (List.mem_cons_self _ _)) ▸ hpa)]
    | false =>
      rw [List.find?_cons_of_neg _ (by simp [hpa]),
        List.find?_cons_of_neg _ (by simp [← h a (List.mem_cons_self _ _), hpa])]
      exact ih fun a ha => h a (List.mem_cons_of_mem _ ha)

theorem getD_append_lt {α : Type} (l l' : List α) (j : Nat) (d : α)
    (h : j < l.length) : (l ++ l').getD j d = l.getD j d := by
  induction l generalizing j with
  | nil => cases h
  | cons a l ih =>
    cases j with
    | zero => rfl
    | succ j => exact ih j (by simpa using h)

theorem getD_append_len {α : Type} (l : List α) (x : α) (d : α) :
    (l ++ [x]).getD l.length d = x := by
  induction l with
  | nil => rfl
  | cons a l ih => simpa using ih

theorem getD_of_le {α : Type} (l : List α) (j : Nat) (d : α)
    (h : l.length ≤ j) : l.getD j d = d := by
  induction l generalizing j with
  | nil => rfl
  | cons a l ih =>
    cases j with
    | zero => cases h
    | succ j => exact ih j (by simpa using h)

/-! ## Arena-level helper lemmas -/

section ArenaLemmas

variable [DecidableEq K]

theorem length_listModify (l : List (Node K V)) (i : Nat)
    (f : Node K V → Node K V) : (listModify l i f).length = l.length := by
  unfold listModify
  cases h : l.get? i <;> simp

theorem listModify_getD_ne (l : List (Node K V)) (i : Nat)
    (f : Node K V → Node K V) (j : Nat) (h : j ≠ i) :
    (listModify l i f).getD j emptyNode = l.getD j emptyNode := by
  unfold listModify
  cases hg : l.get? i with
  | none => rfl
  | some a =>
    rw [List.getD_eq_get?, List.get?_set_ne _ _ (fun he => h he.symm),
      ← List.getD_eq_get?]

theorem listModify_getD_self (l : List (Node K V)) (i : Nat)
    (f : Node K V → Node K V) (h : i < l.length) :
    (listModify l i f).getD i emptyNode = f (l.getD i emptyNode) := by
  unfold listModify
  cases hg : l.get? i with
  | none =>
    exact absurd (List.get?_eq_none.mp hg) (by omega)
  | some a =>
    have hda : l.getD i emptyNode = a := by
      rw [List.getD_eq_get?, hg]; rfl
    rw [List.getD_eq_get?, List.get?_set_eq_of_lt _ (by simpa using h), hda]
    rfl

theorem update_length [LinearOrder V] (t : Trie K V) (i : Nat) (v : V) :
    (t.update_min_descendent i v).nodes.length = t.nodes.length :=
  length_listModify _ _ _

theorem update_sameShape [LinearOrder V] (t : Trie K V) (i : Nat) (v : V) :
    sameShape (t.update_min_descendent i v) t := by
  refine ⟨update_length t i v, fun j => ?_⟩
  show (Trie.nodeAt _ j).key = _ ∧ (Trie.nodeAt _ j).children = _ ∧
    (Trie.nodeAt _ j).parent = _
  unfold Trie.nodeAt Trie.update_min_descendent
  by_cases hj : j = i
  · subst hj
    by_cases hlen : j < t.nodes.length
    · rw [listModify_getD_self _ _ _ hlen]
      cases (t.nodes.getD j emptyNode).min_descendent with
      | none => exact ⟨rfl, rfl, rfl⟩
      | some cur => dsimp only; split_ifs <;> exact ⟨rfl, rfl, rfl⟩
    · unfold listModify
      rw [List.get?_eq_none.mpr (by omega)]
      exact ⟨rfl, rfl, rfl⟩
  · rw [listModify_getD_ne _ _ _ _ hj]
    exact ⟨rfl, rfl, rfl⟩

theorem update_md_isSome [LinearOrder V] (t : Trie K V) (i : Nat) (v : V)
    (j : Nat) (h : ((t.nodeAt j).min_descendent).isSome = true) :
    (((t.update_min_descendent i v).nodeAt j).min_descendent).isSome = true := by
  show ((Trie.nodeAt _ j).min_descendent).isSome = true
  unfold Trie.nodeAt Trie.update_min_descendent
  by_cases hj : j = i
  · subst hj
    by_cases hlen : j < t.nodes.length
    · rw [listModify_getD_self _ _ _ hlen]
      have h' : ((t.nodes.getD j emptyNode).min_descendent).isSome = true := h
      cases hmd : (t.nodes.getD j emptyNode).min_descendent with
      | none => rw [hmd] at h'; simp at h'
      | some cur => dsimp only; split_ifs <;> simp only [hmd, Option.isSome_some]
    · unfold listModify
      rw [List.get?_eq_none.mpr (by omega)]
      exact h
  · rw [listModify_getD_ne _ _ _ _ hj]
    exact h

theorem update_md_self [LinearOrder V] (t : Trie K V) (i : Nat) (v : V)
    (h : i < t.nodes.length) :
    (((t.update_min_descendent i v).nodeAt i).min_descendent).isSome = true := by
  show ((Trie.nodeAt _ i).min_descendent).isSome = true
  unfold Trie.nodeAt Trie.update_min_descendent
  rw [listModify_getD_self _ _ _ h]
  cases hmd : (t.nodes.getD i emptyNode).min_descendent with
  | none => rfl
  | some cur => dsimp only; split_ifs <;> simp only [hmd, Option.isSome_some]

theorem sameShape_refl (t : Trie K V) : sameShape t t :=
  ⟨rfl, fun _ => ⟨rfl, rfl, rfl⟩⟩

theorem sameShape_symm {t t' : Trie K V} (h : sameShape t t') :
    sameShape t' t :=
  ⟨h.1.symm, fun j => ⟨(h.2 j).1.symm, (h.2 j).2.1.symm, (h.2 j).2.2.symm⟩⟩

theorem sameShape_trans {a b c : Trie K V} (hab : sameShape a b)
    (hbc : sameShape b c) : sameShape a c :=
  ⟨hab.1.trans hbc.1, fun j =>
    ⟨(hab.2 j).1.trans (hbc.2 j).1, (hab.2 j).2.1.trans (hbc.2 j).2.1,
      (hab.2 j).2.2.trans (hbc.2 j).2.2⟩⟩

theorem get_child_shape {t t' : Trie K V} (h : sameShape t t') (c : Nat)
    (k : Key K) : t.get_child_index c k = t'.get_child_index c k := by
  unfold Trie.get_child_index
  rw [(h.2 c).2.1]
  exact find?_congr _ _ _ fun a _ => by rw [(h.2 a).1]

theorem follow_shape {t t' : Trie K V} (h : sameShape t t') :
    ∀ (ks : List (Key K)) (c : Nat), t.follow c ks = t'.follow c ks := by
  intro ks
  induction ks with
  | nil => intro c; rfl
  | cons k ks ih =>
    intro c
    show (match t.get_child_index c k with
      | some ci => t.follow ci ks
      | none => none) =
      (match t'.get_child_index c k with
      | some ci => t'.follow ci ks
      | none => none)
    rw [get_child_shape h c k]
    cases t'.get_child_index c k with
    | some ci => exact ih ci
    | none => rfl

theorem shapeInv_of_sameShape {t t' : Trie K V} (h : sameShape t t')
    (hs : ShapeInv t) : ShapeInv t' := by
  refine ⟨h.1 ▸ hs.pos, ?_, ?_, ?_, ?_⟩
  · intro j x hx
    exact hs.asc j x ((h.2 j).2.1 ▸ hx)
  · intro j x hx
    exact h.1 ▸ hs.bound j x ((h.2 j).2.1 ▸ hx)
  · intro x j j' hj hj'
    exact hs.parentUniq x j j' ((h.2 j).2.1 ▸ hj) ((h.2 j').2.1 ▸ hj')
  · intro j hx
    exact hs.noChildZero j ((h.2 j).2.1 ▸ hx)

theorem update_mdInv [LinearOrder V] (t : Trie K V) (i : Nat) (v : V)
    (h : MdInv t) : MdInv (t.update_min_descendent i v) := by
  intro j hj0 hjlen
  rw [update_length] at hjlen
  by_cases hj : j = i
  · subst hj
    exact update_md_self t j v hjlen
  · have := update_sameShape t i v
    exact update_md_isSome t i v j (h j hj0 hjlen)

theorem follow_nil (t : Trie K V) (c : Nat) : t.follow c [] = some c := rfl

theorem follow_cons (t : Trie K V) (k : Key K) (ks : List (Key K)) (c : Nat) :
    t.follow c (k :: ks) =
      match t.get_child_index c k with
      | some ci => t.follow ci ks
      | none => none := rfl

theorem get_child_mem {t : Trie K V} {j x : Nat} {k : Key K}
    (hx : t.get_child_index j k = some x) : x ∈ (t.nodeAt j).children :=
  List.mem_of_find?_eq_some hx

theorem get_child_key {t : Trie K V} {j x : Nat} {k : Key K}
    (hx : t.get_child_index j k = some x) : (t.nodeAt x).key = k := by
  have := List.find?_some hx
  simp only [decide_eq_true_eq] at this
  exact this.symm

theorem follow_bound {t : Trie K V} (hs : ShapeInv t) :
    ∀ (ks : List (Key K)) (j i : Nat), j < t.nodes.length →
      t.follow j ks = some i → i < t.nodes.length := by
  intro ks
  induction ks with
  | nil => intro j i hj h; cases h; exact hj
  | cons k ks ih =>
    intro j i hj h
    rw [follow_cons] at h
    cases hg : t.get_child_index j k with
    | some ci =>
      rw [hg] at h
      exact ih ci i (hs.bound j ci (get_child_mem hg)) h
    | none => rw [hg] at h; cases h

theorem follow_last {t : Trie K V} :
    ∀ (ks : List (Key K)) (j i : Nat), t.follow j ks = some i →
      (ks = [] ∧ i = j) ∨
      ∃ ks' k' p, ks = ks' ++ [k'] ∧ t.follow j ks' = some p ∧
        t.get_child_index p k' = some i := by
  intro ks
  induction ks with
  | nil => intro j i h; cases h; exact Or.inl ⟨rfl, rfl⟩
  | cons k ks ih =>
    intro j i h
    rw [follow_cons] at h
    cases hg : t.get_child_index j k with
    | none => rw [hg] at h; cases h
    | some ci =>
      rw [hg] at h
      rcases ih ci i h with ⟨rfl, rfl⟩ | ⟨ks', k', p, rfl, hfp, hci⟩
      · exact Or.inr ⟨[], k, j, rfl, rfl, hg⟩
      · refine Or.inr ⟨k :: ks', k', p, rfl, ?_, hci⟩
        rw [follow_cons, hg]
        exact hfp

theorem follow_to_zero {t : Trie K V} (hs : ShapeInv t) :
    ∀ (ks : List (Key K)) (j : Nat), t.follow j ks = some 0 → ks = [] := by
  intro ks j h
  rcases follow_last ks j 0 h with ⟨rfl, _⟩ | ⟨ks', k', p, rfl, _, hc⟩
  · rfl
  · exact absurd (get_child_mem hc) (hs.noChildZero p)

theorem appendChild_nodeAt (t : Trie K V) (c : Nat) (k : Key K)
    (hc : c < t.nodes.length) (j : Nat) :
    (t.appendChild c k).nodeAt j =
      if j = c then
        { t.nodeAt c with children := (t.nodeAt c).children ++ [t.nodes.length] }
      else if j = t.nodes.length then ⟨k, none, [], some c⟩
      else t.nodeAt j := by
  show (listModify (t.nodes ++ [⟨k, none, [], some c⟩]) c
      (fun n => { n with children := n.children ++ [t.nodes.length] })).getD j emptyNode = _
  by_cases hjc : j = c
  · subst hjc
    rw [if_pos rfl,
      listModify_getD_self _ _ _ (by simp only [List.length_append]; omega),
      getD_append_lt _ _ _ _ hc]
    rfl
  · rw [if_neg hjc, listModify_getD_ne _ _ _ _ hjc]
    by_cases hjn : j = t.nodes.length
    · subst hjn
      rw [if_pos rfl]
      exact getD_append_len _ _ _
    · rw [if_neg hjn]
      rcases Nat.lt_or_ge j t.nodes.length with hlt | hge
      · exact getD_append_lt _ _ _ _ hlt
      · show _ = t.nodes.getD j emptyNode
        rw [getD_of_le _ _ _
            (by simp only [List.length_append, List.length_cons,
              List.length_nil]; omega),
          getD_of_le _ _ _ (by omega)]

theorem appendChild_key_lt {t : Trie K V} {c : Nat} {k : Key K}
    (hc : c < t.nodes.length) {e : Nat} (he : e < t.nodes.length) :
    ((t.appendChild c k).nodeAt e).key = (t.nodeAt e).key := by
  rw [appendChild_nodeAt t c k hc e]
  split_ifs with h1 h2
  · subst h1; rfl
  · omega
  · rfl

theorem appendChild_mem_children {t : Trie K V} {c : Nat} {k : Key K}
    (hc : c < t.nodes.length) {j x : Nat}
    (hx : x ∈ ((t.appendChild c k).nodeAt j).children) :
    x ∈ (t.nodeAt j).children ∨ (j = c ∧ x = t.nodes.length) := by
  rw [appendChild_nodeAt t c k hc j] at hx
  split_ifs at hx with h1 h2
  · rcases List.mem_append.mp hx with h | h
    · exact Or.inl (h1 ▸ h)
    · exact Or.inr ⟨h1, List.mem_singleton.mp h⟩
  · simp at hx
  · exact Or.inl hx

theorem appendChild_shapeInv {t : Trie K V} {c : Nat} {k : Key K}
    (hs : ShapeInv t) (hc : c < t.nodes.length) :
    ShapeInv (t.appendChild c k) := by
  have hlen : (t.appendChild c k).nodes.length = t.nodes.length + 1 := by
    show (listModify _ _ _).length = _
    rw [length_listModify]
    simp
  refine ⟨by omega, ?_, ?_, ?_, ?_⟩
  · intro j x hx
    rcases appendChild_mem_children hc hx with h | ⟨rfl, rfl⟩
    · exact hs.asc j x h
    · exact hc
  · intro j x hx
    rw [hlen]
    rcases appendChild_mem_children hc hx with h | ⟨rfl, rfl⟩
    · exact Nat.lt_succ_of_lt (hs.bound j x h)
    · omega
  · intro x j j' hj hj'
    rcases appendChild_mem_children hc hj with h | ⟨rfl, rfl⟩
    · rcases appendChild_mem_children hc hj' with h' | ⟨rfl, rfl⟩
      · exact hs.parentUniq x j j' h h'
      · exact absurd (hs.bound _ _ h) (by omega)
    · rcases appendChild_mem_children hc hj' with h' | ⟨rfl, _⟩
      · exact absurd (hs.bound _ _ h') (by omega)
      · rfl
  · intro j hx
    rcases appendChild_mem_children hc hx with h | ⟨rfl, hzero⟩
    · exact hs.noChildZero j h
    · exact absurd hzero.symm (by have := hs.pos; omega)

theorem appendChild_get_child {t : Trie K V} {c : Nat} {k : Key K}
    (hs : ShapeInv t) (hc : c < t.nodes.length) (j : Nat) (k' : Key K)
    {x : Nat} (hx : t.get_child_index j k' = some x) :
    (t.appendChild c k).get_child_index j k' = some x := by
  have hcongr : ∀ e ∈ (t.nodeAt j).children,
      (decide (k' = ((t.appendChild c k).nodeAt e).key))
        = (decide (k' = (t.nodeAt e).key)) := by
    intro e he
    rw [appendChild_key_lt hc (hs.bound j e he)]
  show ((t.appendChild c k).nodeAt j).children.find? _ = some x
  rw [appendChild_nodeAt t c k hc j]
  split_ifs with h1 h2
  · subst h1
    show ((t.nodeAt j).children ++ [t.nodes.length]).find? _ = some x
    rw [List.find?_append, find?_congr _ _ _ hcongr]
    rw [show ((t.nodeAt j).children.find? fun i => decide (k' = (t.nodeAt i).key))
        = some x from hx]
    rfl
  · subst h2
    have : (t.nodeAt t.nodes.length).children = [] := by
      show (t.nodes.getD _ emptyNode).children = _
      rw [getD_of_le _ _ _ (le_refl _)]
      rfl
    rw [Trie.get_child_index, this] at hx
    cases hx
  · rw [find?_congr _ _ _ hcongr]
    exact hx

theorem appendChild_follow {t : Trie K V} {c : Nat} {k : Key K}
    (hs : ShapeInv t) (hc : c < t.nodes.length) :
    ∀ (ks : List (Key K)) (j i : Nat), t.follow j ks = some i →
      (t.appendChild c k).follow j ks = some i := by
  intro ks
  induction ks with
  | nil => intro j i h; exact h
  | cons k' ks ih =>
    intro j i h
    rw [follow_cons] at h ⊢
    cases hg : t.get_child_index j k' with
    | none => rw [hg] at h; cases h
    | some ci =>
      rw [hg] at h
      rw [appendChild_get_child hs hc j k' hg]
      exact ih ci i h

/-! The central characterization: following any key path in
`appendChild t c k` either was already possible in `t`, or ends exactly at
the freshly created node, reached by a path to `c` followed by `k`. -/

theorem appendChild_follow_char {t : Trie K V} {c : Nat} {k : Key K}
    (hs : ShapeInv t) (hc : c < t.nodes.length) :
    ∀ (qs : List (Key K)) (j i : Nat),
      (t.appendChild c k).follow j qs = some i →
      t.follow j qs = some i ∨
      (i = t.nodes.length ∧ ∃ q1, qs = q1 ++ [k] ∧ t.follow j q1 = some c) := by
  intro qs
  induction qs with
  | nil => intro j i h; exact Or.inl h
  | cons k' qs ih =>
    intro j i h
    rw [follow_cons] at h
    cases hg : (t.appendChild c k).get_child_index j k' with
    | none => rw [hg] at h; cases h
    | some c1 =>
      rw [hg] at h
      -- characterise the child taken: an old child found in `t`, or the
      -- fresh node (only under `c`, only with key `k`)
      have hchild : t.get_child_index j k' = some c1 ∨
          (j = c ∧ c1 = t.nodes.length ∧ k' = k) := by
        have hcongr : ∀ e ∈ (t.nodeAt j).children,
            (decide (k' = ((t.appendChild c k).nodeAt e).key))
              = (decide (k' = (t.nodeAt e).key)) := by
          intro e he
          rw [appendChild_key_lt hc (hs.bound j e he)]
        have hg' := hg
        rw [Trie.get_child_index, appendChild_nodeAt t c k hc j] at hg'
        split_ifs at hg' with h1 h2
        · rw [List.find?_append, find?_congr _ _ _ (h1 ▸ hcongr)] at hg'
          cases hold : (t.nodeAt j).children.find?
              (fun i => decide (k' = (t.nodeAt i).key)) with
          | some y =>
            rw [h1] at hold
            rw [hold] at hg'
            cases hg'
            exact Or.inl (h1 ▸ hold)
          | none =>
            rw [h1] at hold
            rw [hold] at hg'
            simp only [Option.none_or] at hg'
            have hkey : ((t.appendChild c k).nodeAt t.nodes.length).key = k := by
              rw [appendChild_nodeAt t c k hc]
              rw [if_neg (by omega), if_pos rfl]
            cases hfind : List.find?
                (fun i => decide (k' = ((t.appendChild c k).nodeAt i).key))
                [t.nodes.length] with
            | none => rw [hfind] at hg'; cases hg'
            | some y =>
              rw [hfind] at hg'
              cases hg'
              have hy := List.mem_of_find?_eq_some hfind
              rcases List.mem_singleton.mp hy with rfl
              have := List.find?_some hfind
              simp only [decide_eq_true_eq] at this
              rw [hkey] at this
              exact Or.inr ⟨h1, rfl, this⟩
        · subst h2
          simp at hg'
        · rw [find?_congr _ _ _ hcongr] at hg'
          exact Or.inl hg'
      rcases hchild with hold | ⟨hjc, hc1, hkk⟩
      · -- continue from an old child
        have hc1 : c1 < t.nodes.length := hs.bound j c1 (get_child_mem hold)
        rcases ih c1 i h with hL | ⟨hi, q1, rfl, hfq⟩
        · refine Or.inl ?_
          rw [follow_cons, hold]
          exact hL
        · refine Or.inr ⟨hi, k' :: q1, rfl, ?_⟩
          rw [follow_cons, hold]
          exact hfq
      · -- stepped into the fresh node: it has no children, so the walk ends
        subst hc1
        have hempty : ((t.appendChild c k).nodeAt t.nodes.length).children = [] := by
          rw [appendChild_nodeAt t c k hc]
          rw [if_neg (by omega), if_pos rfl]
        cases qs with
        | nil =>
          cases h
          refine Or.inr ⟨rfl, [], ?_, ?_⟩
          · rw [hkk]; rfl
          · rw [follow_nil, hjc]
        | cons q qs' =>
          have h' : (t.appendChild c k).follow t.nodes.length (q :: qs')
              = some i := h
          rw [follow_cons, Trie.get_child_index, hempty] at h'
          cases h'

theorem update_nodeAt_ne [LinearOrder V] (t : Trie K V) (i : Nat) (v : V)
    (j : Nat) (h : j ≠ i) :
    (t.update_min_descendent i v).nodeAt j = t.nodeAt j :=
  listModify_getD_ne _ _ _ _ h

theorem get_or_create_found {t : Trie K V} {c : Nat} {k : Key K} {ci : Nat}
    (hg : t.get_child_index c k = some ci) :
    t.get_or_create_child_index c k = (ci, t) := by
  unfold Trie.get_or_create_child_index
  rw [hg]

theorem get_or_create_missing {t : Trie K V} {c : Nat} {k : Key K}
    (hg : t.get_child_index c k = none) :
    t.get_or_create_child_index c k = (t.nodes.length, t.appendChild c k) := by
  unfold Trie.get_or_create_child_index
  rw [hg]

theorem pushAux_found [LinearOrder V] {t : Trie K V} {c : Nat} {k : Key K}
    {ci : Nat} (hg : t.get_child_index c k = some ci) (v : V)
    (ks : List (Key K)) :
    t.pushAux c v (k :: ks)
      = (t.update_min_descendent ci v).pushAux ci v ks := by
  show ((t.get_or_create_child_index c k).2.update_min_descendent
      (t.get_or_create_child_index c k).1 v).pushAux
      (t.get_or_create_child_index c k).1 v ks = _
  rw [get_or_create_found hg]

theorem pushAux_missing [LinearOrder V] {t : Trie K V} {c : Nat} {k : Key K}
    (hg : t.get_child_index c k = none) (v : V) (ks : List (Key K)) :
    t.pushAux c v (k :: ks)
      = ((t.appendChild c k).update_min_descendent t.nodes.length v).pushAux
          t.nodes.length v ks := by
  show ((t.get_or_create_child_index c k).2.update_min_descendent
      (t.get_or_create_child_index c k).1 v).pushAux
      (t.get_or_create_child_index c k).1 v ks = _
  rw [get_or_create_missing hg]

/-- Structural facts about a `pushAux` walk from a valid node: the result
keeps the shape invariants, the arena only grows, old keys are untouched,
and the children of every node strictly below the walk's start are
untouched. -/
theorem pushAux_facts [LinearOrder V] (v : V) :
    ∀ (ks : List (Key K)) (t : Trie K V) (c : Nat), ShapeInv t →
      c < t.nodes.length →
      ShapeInv (t.pushAux c v ks)
      ∧ t.nodes.length ≤ (t.pushAux c v ks).nodes.length
      ∧ (∀ j, j < t.nodes.length →
          ((t.pushAux c v ks).nodeAt j).key = (t.nodeAt j).key)
      ∧ (∀ j, j < c →
          ((t.pushAux c v ks).nodeAt j).children = (t.nodeAt j).children) := by
  intro ks
  induction ks with
  | nil =>
    intro t c hs hc
    exact ⟨hs, le_refl _, fun _ _ => rfl, fun _ _ => rfl⟩
  | cons k ks ih =>
    intro t c hs hc
    cases hg : t.get_child_index c k with
    | some ci =>
      rw [pushAux_found hg]
      have hshape : sameShape (t.update_min_descendent ci v) t :=
        update_sameShape t ci v
      have hs2 : ShapeInv (t.update_min_descendent ci v) :=
        shapeInv_of_sameShape (sameShape_symm hshape) hs
      have hci : ci < t.nodes.length := hs.bound c ci (get_child_mem hg)
      have hcci : c < ci := hs.asc c ci (get_child_mem hg)
      have hlen2 : (t.update_min_descendent ci v).nodes.length
          = t.nodes.length := update_length t ci v
      obtain ⟨hI, hle, hkeys, hch⟩ :=
        ih (t.update_min_descendent ci v) ci hs2 (by omega)
      refine ⟨hI, by omega, ?_, ?_⟩
      · intro j hj
        rw [hkeys j (by omega), (hshape.2 j).1]
      · intro j hj
        rw [hch j (by omega), (hshape.2 j).2.1]
    | none =>
      rw [pushAux_missing hg]
      have hsA : ShapeInv (t.appendChild c k) := appendChild_shapeInv hs hc
      have hlenA : (t.appendChild c k).nodes.length = t.nodes.length + 1 := by
        show (listModify _ _ _).length = _
        rw [length_listModify]
        simp
      have hshape : sameShape
          ((t.appendChild c k).update_min_descendent t.nodes.length v)
          (t.appendChild c k) := update_sameShape _ _ _
      have hs3 : ShapeInv
          ((t.appendChild c k).update_min_descendent t.nodes.length v) :=
        shapeInv_of_sameShape (sameShape_symm hshape) hsA
      have hlen3 : ((t.appendChild c k).update_min_descendent
          t.nodes.length v).nodes.length = t.nodes.length + 1 := by
        rw [update_length, hlenA]
      obtain ⟨hI, hle, hkeys, hch⟩ :=
        ih ((t.appendChild c k).update_min_descendent t.nodes.length v)
          t.nodes.length hs3 (by omega)
      refine ⟨hI, by omega, ?_, ?_⟩
      · intro j hj
        rw [hkeys j (by omega), (hshape.2 j).1, appendChild_key_lt hc hj]
      · intro j hj
        rw [hch j (by omega), (hshape.2 j).2.1, appendChild_nodeAt t c k hc j,
          if_neg (by omega), if_neg (by omega)]

/-- `pushAux` preserves the aggregate-present invariant: every created
node's aggregate is set right after creation, and updates never clear. -/
theorem pushAux_mdInv [LinearOrder V] (v : V) :
    ∀ (ks : List (Key K)) (t : Trie K V) (c : Nat), ShapeInv t →
      c < t.nodes.length → MdInv t → MdInv (t.pushAux c v ks) := by
  intro ks
  induction ks with
  | nil => intro t c _ _ hm; exact hm
  | cons k ks ih =>
    intro t c hs hc hm
    cases hg : t.get_child_index c k with
    | some ci =>
      rw [pushAux_found hg]
      have hs2 : ShapeInv (t.update_min_descendent ci v) :=
        shapeInv_of_sameShape (sameShape_symm (update_sameShape t ci v)) hs
      have hci : ci < t.nodes.length := hs.bound c ci (get_child_mem hg)
      exact ih _ ci hs2 (by rw [update_length]; omega)
        (update_mdInv t ci v hm)
    | none =>
      rw [pushAux_missing hg]
      have hsA : ShapeInv (t.appendChild c k) := appendChild_shapeInv hs hc
      have hlenA : (t.appendChild c k).nodes.length = t.nodes.length + 1 := by
        show (listModify _ _ _).length = _
        rw [length_listModify]
        simp
      have hs3 : ShapeInv
          ((t.appendChild c k).update_min_descendent t.nodes.length v) :=
        shapeInv_of_sameShape (sameShape_symm (update_sameShape _ _ _)) hsA
      have hm3 : MdInv
          ((t.appendChild c k).update_min_descendent t.nodes.length v) := by
        intro i hi0 hilen
        rw [update_length, hlenA] at hilen
        by_cases hin : i = t.nodes.length
        · subst hin
          exact update_md_self _ _ _ (by omega)
        · rw [update_nodeAt_ne _ _ _ _ hin]
          have hmd : ((t.appendChild c k).nodeAt i).min_descendent
              = (t.nodeAt i).min_descendent := by
            rw [appendChild_nodeAt t c k hc i]
            split_ifs with h1
            · subst h1; rfl
            · rfl
          rw [hmd]
          exact hm i hi0 (by omega)
      exact ih _ t.nodes.length hs3 (by rw [update_length, hlenA]; omega) hm3

/-- Every walk possible before a `pushAux` is still possible afterwards:
the arena only gains nodes and child entries. -/
theorem pushAux_persist [LinearOrder V] (v : V) :
    ∀ (ks : List (Key K)) (t : Trie K V) (c : Nat), ShapeInv t →
      c < t.nodes.length →
      ∀ (qs : List (Key K)) (j i : Nat), t.follow j qs = some i →
        (t.pushAux c v ks).follow j qs = some i := by
  intro ks
  induction ks with
  | nil => intro t c _ _ qs j i h; exact h
  | cons k ks ih =>
    intro t c hs hc qs j i h
    cases hg : t.get_child_index c k with
    | some ci =>
      rw [pushAux_found hg]
      have hs2 : ShapeInv (t.update_min_descendent ci v) :=
        shapeInv_of_sameShape (sameShape_symm (update_sameShape t ci v)) hs
      have hci : ci < t.nodes.length := hs.bound c ci (get_child_mem hg)
      refine ih _ ci hs2 (by rw [update_length]; omega) qs j i ?_
      rw [follow_shape (update_sameShape t ci v) qs j]
      exact h
    | none =>
      rw [pushAux_missing hg]
      have hsA : ShapeInv (t.appendChild c k) := appendChild_shapeInv hs hc
      have hlenA : (t.appendChild c k).nodes.length = t.nodes.length + 1 := by
        show (listModify _ _ _).length = _
        rw [length_listModify]
        simp
      have hs3 : ShapeInv
          ((t.appendChild c k).update_min_descendent t.nodes.length v) :=
        shapeInv_of_sameShape (sameShape_symm (update_sameShape _ _ _)) hsA
      refine ih _ t.nodes.length hs3 (by rw [update_length, hlenA]; omega)
        qs j i ?_
      rw [follow_shape (update_sameShape _ _ _) qs j]
      exact appendChild_follow hs hc qs j i h

/-- Creation: after `pushAux` walks a key list from a valid node, the whole
key list can be followed from that node. -/
theorem pushAux_self [LinearOrder V] (v : V) :
    ∀ (ks : List (Key K)) (t : Trie K V) (c : Nat), ShapeInv t →
      c < t.nodes.length →
      ∃ e, (t.pushAux c v ks).follow c ks = some e := by
  intro ks
  induction ks with
  | nil => intro t c _ _; exact ⟨c, rfl⟩
  | cons k ks ih =>
    intro t c hs hc
    cases hg : t.get_child_index c k with
    | some ci =>
      rw [pushAux_found hg]
      have hshape : sameShape (t.update_min_descendent ci v) t :=
        update_sameShape t ci v
      have hs2 : ShapeInv (t.update_min_descendent ci v) :=
        shapeInv_of_sameShape (sameShape_symm hshape) hs
      have hci : ci < t.nodes.length := hs.bound c ci (get_child_mem hg)
      have hcci : c < ci := hs.asc c ci (get_child_mem hg)
      have hlen2 : (t.update_min_descendent ci v).nodes.length
          = t.nodes.length := update_length t ci v
      obtain ⟨_, _, hkeys, hch⟩ :=
        pushAux_facts v ks (t.update_min_descendent ci v) ci hs2 (by omega)
      obtain ⟨e, hE⟩ := ih (t.update_min_descendent ci v) ci hs2 (by omega)
      have hgc : ((t.update_min_descendent ci v).pushAux ci v ks).get_child_index
          c k = some ci := by
        show (Trie.nodeAt _ c).children.find? _ = some ci
        rw [hch c (by omega), (hshape.2 c).2.1]
        rw [find?_congr _ (fun i => decide (k = (t.nodeAt i).key)) _ ?_]
        · exact hg
        · intro e' he'
          rw [hkeys e' (by rw [hlen2]; exact hs.bound c e' he'),
            (hshape.2 e').1]
      exact ⟨e, by rw [follow_cons, hgc]; exact hE⟩
    | none =>
      rw [pushAux_missing hg]
      have hsA : ShapeInv (t.appendChild c k) := appendChild_shapeInv hs hc
      have hlenA : (t.appendChild c k).nodes.length = t.nodes.length + 1 := by
        show (listModify _ _ _).length = _
        rw [length_listModify]
        simp
      have hshape : sameShape
          ((t.appendChild c k).update_min_descendent t.nodes.length v)
          (t.appendChild c k) := update_sameShape _ _ _
      have hs3 : ShapeInv
          ((t.appendChild c k).update_min_descendent t.nodes.length v) :=
        shapeInv_of_sameShape (sameShape_symm hshape) hsA
      have hlen3 : ((t.appendChild c k).update_min_descendent
          t.nodes.length v).nodes.length = t.nodes.length + 1 := by
        rw [update_length, hlenA]
      obtain ⟨_, _, hkeys, hch⟩ :=
        pushAux_facts v ks
          ((t.appendChild c k).update_min_descendent t.nodes.length v)
          t.nodes.length hs3 (by omega)
      obtain ⟨e, hE⟩ :=
        ih ((t.appendChild c k).update_min_descendent t.nodes.length v)
          t.nodes.length hs3 (by omega)
      have hkeyn : ((((t.appendChild c k).update_min_descendent
          t.nodes.length v).pushAux t.nodes.length v ks).nodeAt
          t.nodes.length).key = k := by
        rw [hkeys t.nodes.length (by omega), (hshape.2 t.nodes.length).1,
          appendChild_nodeAt t c k hc t.nodes.length,
          if_neg (by omega), if_pos rfl]
      have hgc : ((((t.appendChild c k).update_min_descendent
          t.nodes.length v).pushAux t.nodes.length v ks)).get_child_index
          c k = some t.nodes.length := by
        show (Trie.nodeAt _ c).children.find? _ = some t.nodes.length
        rw [hch c (by omega), (hshape.2 c).2.1,
          appendChild_nodeAt t c k hc c, if_pos rfl]
        show ((t.nodeAt c).children ++ [t.nodes.length]).find? _
          = some t.nodes.length
        rw [List.find?_append]
        rw [find?_congr _ (fun i => decide (k = (t.nodeAt i).key)) _ ?_]
        · have hg' : List.find? (fun i => decide (k = (t.nodeAt i).key))
              (t.nodeAt c).children = none := hg
          rw [hg']
          simp [List.find?, hkeyn]
        · intro e' he'
          have he'lt : e' < t.nodes.length := hs.bound c e' he'
          rw [hkeys e' (by omega), (hshape.2 e').1,
            appendChild_key_lt hc he'lt]
      exact ⟨e, by rw [follow_cons, hgc]; exact hE⟩

/-- Characterization: any root walk that succeeds after a `pushAux` either
already succeeded before it, or decomposes as a walk to the push's start
node followed by a non-empty prefix of the pushed key list. -/
theorem pushAux_follow_char [LinearOrder V] (v : V) :
    ∀ (ks : List (Key K)) (t : Trie K V) (c : Nat), ShapeInv t →
      c < t.nodes.length →
      ∀ (qs : List (Key K)) (i : Nat),
        (t.pushAux c v ks).follow 0 qs = some i →
        (i < t.nodes.length ∧ t.follow 0 qs = some i) ∨
        (∃ q1 m, qs = q1 ++ ks.take m ∧ t.follow 0 q1 = some c ∧ 0 < m ∧
          m ≤ ks.length) := by
  intro ks
  induction ks with
  | nil =>
    intro t c hs _ qs i h
    exact Or.inl ⟨follow_bound hs qs 0 i hs.pos h, h⟩
  | cons k ks ih =>
    intro t c hs hc qs i h
    cases hg : t.get_child_index c k with
    | some ci =>
      rw [pushAux_found hg] at h
      have hshape : sameShape (t.update_min_descendent ci v) t :=
        update_sameShape t ci v
      have hs2 : ShapeInv (t.update_min_descendent ci v) :=
        shapeInv_of_sameShape (sameShape_symm hshape) hs
      have hci : ci < t.nodes.length := hs.bound c ci (get_child_mem hg)
      rcases ih (t.update_min_descendent ci v) ci hs2
          (by rw [update_length]; omega) qs i h with
        ⟨hilt, hf⟩ | ⟨q1, m, rfl, hfq1, hm0, hmle⟩
      · rw [update_length] at hilt
        rw [follow_shape hshape qs 0] at hf
        exact Or.inl ⟨hilt, hf⟩
      · rw [follow_shape hshape q1 0] at hfq1
        rcases follow_last q1 0 ci hfq1 with ⟨rfl, hci0⟩ | ⟨q1', k', p, rfl, hfp, hcp⟩
        · exact absurd (hci0 ▸ get_child_mem hg) (hs.noChildZero c)
        · have hp : p = c :=
            hs.parentUniq ci p c (get_child_mem hcp) (get_child_mem hg)
          have hk' : k' = k := by
            have h1 := get_child_key hcp
            have h2 := get_child_key hg
            rw [h1] at h2
            exact h2
          subst hp hk'
          refine Or.inr ⟨q1', m + 1, ?_, hfp, by omega, by simp; omega⟩
          rw [List.append_assoc, List.take_succ_cons]
          rfl
    | none =>
      rw [pushAux_missing hg] at h
      have hsA : ShapeInv (t.appendChild c k) := appendChild_shapeInv hs hc
      have hlenA : (t.appendChild c k).nodes.length = t.nodes.length + 1 := by
        show (listModify _ _ _).length = _
        rw [length_listModify]
        simp
      have hshape : sameShape
          ((t.appendChild c k).update_min_descendent t.nodes.length v)
          (t.appendChild c k) := update_sameShape _ _ _
      have hs3 : ShapeInv
          ((t.appendChild c k).update_min_descendent t.nodes.length v) :=
        shapeInv_of_sameShape (sameShape_symm hshape) hsA
      rcases ih ((t.appendChild c k).update_min_descendent t.nodes.length v)
          t.nodes.length hs3 (by rw [update_length, hlenA]; omega) qs i h with
        ⟨hilt, hf⟩ | ⟨q1, m, rfl, hfq1, hm0, hmle⟩
      · rw [follow_shape hshape qs 0] at hf
        rcases appendChild_follow_char hs hc qs 0 i hf with
          hOld | ⟨rfl, q1, rfl, hfq1⟩
        · exact Or.inl ⟨follow_bound hs qs 0 i hs.pos hOld, hOld⟩
        · refine Or.inr ⟨q1, 1, ?_, hfq1, one_pos, by simp⟩
          rw [List.take_succ_cons, List.take_zero]
      · rw [follow_shape hshape q1 0] at hfq1
        rcases appendChild_follow_char hs hc q1 0 t.nodes.length hfq1 with
          hOld | ⟨_, q1', rfl, hfq1'⟩
        · exact absurd (follow_bound hs q1 0 t.nodes.length hs.pos hOld)
            (lt_irrefl _)
        · refine Or.inr ⟨q1', m + 1, ?_, hfq1', by omega, by simp; omega⟩
          rw [List.append_assoc, List.take_succ_cons]
          rfl

/-! ## `push`-level assembly -/

theorem push_eq_pushAux [LinearOrder V] (t : Trie K V) (s : List K) (v : V)
    (h : t.nodes ≠ []) : t.push s v = t.pushAux 0 v (toKeys s) := by
  show (if t.nodes.isEmpty then rootTrie else t).pushAux 0 v (toKeys s) = _
  rw [if_neg (by simp [h])]

theorem push_empty_eq [LinearOrder V] (t : Trie K V) (s : List K) (v : V)
    (h : t.nodes = []) :
    t.push s v = (rootTrie : Trie K V).pushAux 0 v (toKeys s) := by
  show (if t.nodes.isEmpty then rootTrie else t).pushAux 0 v (toKeys s) = _
  rw [if_pos (by simp [h])]

theorem rootTrie_children (j : Nat) :
    ((rootTrie : Trie K V).nodeAt j).children = [] := by
  match j with
  | 0 => rfl
  | j + 1 => rfl

theorem rootTrie_shapeInv : ShapeInv (rootTrie : Trie K V) := by
  refine ⟨by simp [rootTrie], ?_, ?_, ?_, ?_⟩
  · intro j x hx
    rw [rootTrie_children] at hx
    cases hx
  · intro j x hx
    rw [rootTrie_children] at hx
    cases hx
  · intro x j j' hj _
    rw [rootTrie_children] at hj
    cases hj
  · intro j hx
    rw [rootTrie_children] at hx
    cases hx

theorem rootTrie_mdInv : MdInv (rootTrie : Trie K V) := by
  intro i hi0 hilen
  simp [rootTrie] at hilen
  omega

theorem rootTrie_follow_nil {ks : List (Key K)} {i : Nat}
    (h : (rootTrie : Trie K V).follow 0 ks = some i) : ks = [] := by
  cases ks with
  | nil => rfl
  | cons k ks =>
    rw [follow_cons, Trie.get_child_index, rootTrie_children] at h
    cases h

theorem toKeys_ne_nil (s : List K) : toKeys s ≠ [] := by
  simp [toKeys]

theorem toKeys_cons (a : K) (s : List K) :
    toKeys (a :: s) = Key.Internal a :: toKeys s := rfl

theorem toKeys_take :
    ∀ (s u : List K) (m : Nat), toKeys s = (toKeys u).take m → s = u := by
  intro s
  induction s with
  | nil =>
    intro u m h
    cases u with
    | nil => rfl
    | cons b u' =>
      cases m with
      | zero => simp [toKeys] at h
      | succ m =>
        rw [toKeys_cons, List.take_succ_cons] at h
        rw [show toKeys ([] : List K) = [Key.End] from rfl] at h
        simp at h
  | cons a s' ih =>
    intro u m h
    cases m with
    | zero => simp [toKeys] at h
    | succ m =>
      cases u with
      | nil =>
        rw [show toKeys ([] : List K) = [Key.End] from rfl] at h
        rw [show ([Key.End] : List (Key K)).take (m + 1) = [Key.End] from by
          simp] at h
        rw [toKeys_cons] at h
        simp at h
      | cons b u' =>
        rw [toKeys_cons, toKeys_cons, List.take_succ_cons] at h
        injection h with h1 h2
        injection h1 with hab
        rw [hab, ih u' m h2]

/-- `push` preserves the invariants, starting from an empty arena or from
any invariant-satisfying one. -/
theorem push_inv [LinearOrder V] (t : Trie K V) (s : List K) (v : V)
    (hor : t.nodes = [] ∨ (ShapeInv t ∧ MdInv t)) :
    ShapeInv (t.push s v) ∧ MdInv (t.push s v) := by
  rcases hor with hemp | ⟨hs, hm⟩
  · rw [push_empty_eq t s v hemp]
    have hpos : (0 : Nat) < (rootTrie : Trie K V).nodes.length := by
      simp [rootTrie]
    exact ⟨(pushAux_facts v (toKeys s) rootTrie 0 rootTrie_shapeInv hpos).1,
      pushAux_mdInv v (toKeys s) rootTrie 0 rootTrie_shapeInv hpos
        rootTrie_mdInv⟩
  · rw [push_eq_pushAux t s v (by have := hs.pos; intro he; rw [he] at this; simp at this)]
    exact ⟨(pushAux_facts v (toKeys s) t 0 hs hs.pos).1,
      pushAux_mdInv v (toKeys s) t 0 hs hs.pos hm⟩

/-- `push` keeps every previously followable path followable. -/
theorem push_persist [LinearOrder V] (t : Trie K V) (s : List K) (v : V)
    (hs : ShapeInv t) {qs : List (Key K)} {i : Nat}
    (h : t.follow 0 qs = some i) : (t.push s v).follow 0 qs = some i := by
  rw [push_eq_pushAux t s v
    (by have := hs.pos; intro he; rw [he] at this; simp at this)]
  exact pushAux_persist v (toKeys s) t 0 hs hs.pos qs 0 i h

/-- After `push s v` the full key path of `s` is followable. -/
theorem push_self [LinearOrder V] (t : Trie K V) (s : List K) (v : V)
    (hor : t.nodes = [] ∨ ShapeInv t) :
    ∃ e, (t.push s v).follow 0 (toKeys s) = some e := by
  rcases hor with hemp | hs
  · rw [push_empty_eq t s v hemp]
    exact pushAux_self v (toKeys s) rootTrie 0 rootTrie_shapeInv
      (by simp [rootTrie])
  · rw [push_eq_pushAux t s v
      (by have := hs.pos; intro he; rw [he] at this; simp at this)]
    exact pushAux_self v (toKeys s) t 0 hs hs.pos

/-- Characterization of the stored-sequence set after a `push` on a
non-empty invariant arena: a sequence is followable afterwards iff it was
followable before or is the pushed sequence itself. -/
theorem push_char [LinearOrder V] (t : Trie K V) (u : List K) (w : V)
    (hs : ShapeInv t) (s : List K) {i : Nat}
    (h : (t.push u w).follow 0 (toKeys s) = some i) :
    t.follow 0 (toKeys s) = some i ∨ s = u := by
  rw [push_eq_pushAux t u w
    (by have := hs.pos; intro he; rw [he] at this; simp at this)] at h
  rcases pushAux_follow_char w (toKeys u) t 0 hs hs.pos (toKeys s) i h with
    ⟨_, hf⟩ | ⟨q1, m, heq, hfq1, hm0, hmle⟩
  · exact Or.inl hf
  · have hq1 : q1 = [] := follow_to_zero hs q1 0 hfq1
    subst hq1
    rw [List.nil_append] at heq
    exact Or.inr (toKeys_take s u m heq)

/-- The first `push` on the empty arena stores exactly the pushed
sequence. -/
theorem push_new_char [LinearOrder V] (u : List K) (w : V) (s : List K)
    {i : Nat}
    (h : ((Trie.new : Trie K V).push u w).follow 0 (toKeys s) = some i) :
    s = u := by
  rw [push_empty_eq (Trie.new : Trie K V) u w rfl] at h
  rcases pushAux_follow_char w (toKeys u) rootTrie 0 rootTrie_shapeInv
      (by simp [rootTrie]) (toKeys s) i h with
    ⟨_, hf⟩ | ⟨q1, m, heq, hfq1, hm0, hmle⟩
  · exact absurd (rootTrie_follow_nil hf) (toKeys_ne_nil s)
  · have hq1 : q1 = [] := follow_to_zero rootTrie_shapeInv q1 0 hfq1
    subst hq1
    rw [List.nil_append] at heq
    exact toKeys_take s u m heq

/-- A `pushAux` whose whole key list is already followable changes no
shape at all: every find succeeds and only aggregates are rewritten. -/
theorem pushAux_all_found_shape [LinearOrder V] (v : V) :
    ∀ (ks : List (Key K)) (t : Trie K V) (c i : Nat),
      t.follow c ks = some i → sameShape (t.pushAux c v ks) t := by
  intro ks
  induction ks with
  | nil => intro t c i _; exact sameShape_refl t
  | cons k ks ih =>
    intro t c i h
    rw [follow_cons] at h
    cases hg : t.get_child_index c k with
    | none => rw [hg] at h; cases h
    | some ci =>
      rw [hg] at h
      rw [pushAux_found hg]
      have hshape : sameShape (t.update_min_descendent ci v) t :=
        update_sameShape t ci v
      have h2 : (t.update_min_descendent ci v).follow ci ks = some i := by
        rw [follow_shape hshape ks ci]
        exact h
      exact sameShape_trans (ih (t.update_min_descendent ci v) ci i h2) hshape

/-- Conversion between the public `get` and the internal walk: on an
invariant arena, `get` answers `some` exactly when the walk succeeds. -/
theorem get_isSome_eq (t : Trie K V) (hs : ShapeInv t) (hm : MdInv t)
    (s : List K) :
    ((t.get s).isSome) = ((t.follow 0 (toKeys s)).isSome) := by
  show (((t.follow 0 (toKeys s)).bind
    fun i => (t.nodeAt i).min_descendent).isSome) = _
  cases hf : t.follow 0 (toKeys s) with
  | none => rfl
  | some i =>
    rcases follow_last (toKeys s) 0 i hf with ⟨hnil, _⟩ | ⟨_, _, p, _, _, hcp⟩
    · exact absurd hnil (toKeys_ne_nil s)
    · have hi0 : 0 < i := by
        rcases Nat.eq_zero_or_pos i with rfl | hpos
        · exact absurd (get_child_mem hcp) (hs.noChildZero p)
        · exact hpos
      have hilt : i < t.nodes.length := follow_bound hs (toKeys s) 0 i hs.pos hf
      show ((t.nodeAt i).min_descendent).isSome = true
      exact hm i hi0 hilt

/-! ## `pushAll`-level assembly -/

theorem pushAll_nil [LinearOrder V] (t : Trie K V) : t.pushAll [] = t := rfl

theorem pushAll_cons [LinearOrder V] (t : Trie K V) (p : List K × V)
    (ops : List (List K × V)) :
    t.pushAll (p :: ops) = (t.push p.1 p.2).pushAll ops := rfl

theorem pushAll_inv [LinearOrder V] (ops : List (List K × V)) :
    ∀ (t : Trie K V), (t.nodes = [] ∨ (ShapeInv t ∧ MdInv t)) →
      ((t.pushAll ops).nodes = []
        ∨ (ShapeInv (t.pushAll ops) ∧ MdInv (t.pushAll ops))) := by
  induction ops with
  | nil => intro t hor; exact hor
  | cons p ops ih =>
    intro t hor
    rw [pushAll_cons]
    exact ih _ (Or.inr (push_inv t p.1 p.2 hor))

theorem pushAll_inv2 [LinearOrder V] (ops : List (List K × V)) :
    ∀ (t : Trie K V), ShapeInv t → MdInv t →
      ShapeInv (t.pushAll ops) ∧ MdInv (t.pushAll ops) := by
  induction ops with
  | nil => intro t hs hm; exact ⟨hs, hm⟩
  | cons p ops ih =>
    intro t hs hm
    rw [pushAll_cons]
    obtain ⟨hs', hm'⟩ := push_inv t p.1 p.2 (Or.inr ⟨hs, hm⟩)
    exact ih _ hs' hm'

theorem pushAll_persist [LinearOrder V] (ops : List (List K × V)) :
    ∀ (t : Trie K V), ShapeInv t → MdInv t →
      ∀ {qs : List (Key K)} {i : Nat}, t.follow 0 qs = some i →
        (t.pushAll ops).follow 0 qs = some i := by
  induction ops with
  | nil => intro t _ _ _ _ h; exact h
  | cons p ops ih =>
    intro t hs hm qs i h
    rw [pushAll_cons]
    obtain ⟨hs', hm'⟩ := push_inv t p.1 p.2 (Or.inr ⟨hs, hm⟩)
    exact ih _ hs' hm' (push_persist t p.1 p.2 hs h)

/-- The stored-sequence characterization carried through a whole build. -/
theorem pushAll_follow_char [LinearOrder V] (ops : List (List K × V)) :
    ∀ (t : Trie K V) (L : List (List K)), ShapeInv t → MdInv t →
      (∀ s : List K, (∃ i, t.follow 0 (toKeys s) = some i) ↔ s ∈ L) →
      ShapeInv (t.pushAll ops) ∧ MdInv (t.pushAll ops) ∧
        ∀ s : List K, (∃ i, (t.pushAll ops).follow 0 (toKeys s) = some i) ↔
          (s ∈ L ∨ s ∈ ops.map Prod.fst) := by
  induction ops with
  | nil =>
    intro t L hs hm hchar
    exact ⟨hs, hm, fun s => (hchar s).trans (by simp)⟩
  | cons p ops ih =>
    intro t L hs hm hchar
    obtain ⟨hs', hm'⟩ := push_inv t p.1 p.2 (Or.inr ⟨hs, hm⟩)
    have hchar' : ∀ s : List K,
        (∃ i, (t.push p.1 p.2).follow 0 (toKeys s) = some i) ↔
          s ∈ p.1 :: L := by
      intro s
      constructor
      · rintro ⟨i, hi⟩
        rcases push_char t p.1 p.2 hs s hi with hf | rfl
        · exact List.mem_cons_of_mem _ ((hchar s).mp ⟨i, hf⟩)
        · exact List.mem_cons_self _ _
      · intro hmem
        rcases List.mem_cons.mp hmem with rfl | hmem
        · exact push_self t p.1 p.2 (Or.inr hs)
        · obtain ⟨i, hi⟩ := (hchar s).mpr hmem
          exact ⟨i, push_persist t p.1 p.2 hs hi⟩
    obtain ⟨hS, hM, hC⟩ := ih (t.push p.1 p.2) (p.1 :: L) hs' hm' hchar'
    rw [pushAll_cons]
    refine ⟨hS, hM, fun s => (hC s).trans ?_⟩
    simp only [List.mem_cons, List.map_cons]
    tauto

/-- After the very first `push`, exactly the pushed sequence is stored. -/
theorem first_push_char [LinearOrder V] (u : List K) (w : V) :
    ∀ s : List K,
      (∃ i, ((Trie.new : Trie K V).push u w).follow 0 (toKeys s) = some i) ↔
        s ∈ ([u] : List (List K)) := by
  intro s
  constructor
  · rintro ⟨i, hi⟩
    rw [push_new_char u w s hi]
    exact List.mem_singleton.mpr rfl
  · intro hmem
    rcases List.mem_singleton.mp hmem with rfl
    exact push_self (Trie.new : Trie K V) s w (Or.inl rfl)

end ArenaLemmas

/-! ## Depth-boundedness of the pattern-constrained DFS frontier -/

section DfsDepth

variable [DecidableEq K]

/-- A yielding DFS step preserves the frontier bound: every frame's depth
`d` keeps `d + 1` at most the pattern length. -/
theorem dfsStep_preserves_depth (t : Trie K V) (p : Pattern K)
    (st : List (Nat × Nat)) (h : ∀ fr ∈ st, fr.2 + 1 ≤ p.length) :
    ∀ i st', t.dfsStep (some p) st = .yield i st' →
      ∀ fr ∈ st', fr.2 + 1 ≤ p.length := by
  intro i st' hstep fr hfr
  match st with
  | [] => simp [Trie.dfsStep] at hstep
  | (index, depth) :: rest =>
    have hd : depth + 1 ≤ p.length := h (index, depth) (List.mem_cons_self _ _)
    rw [Trie.dfsStep, if_pos hd] at hstep
    rcases hdrop : p.drop (depth + 1) with _ | ⟨q | k, tail⟩
    · simp only [hdrop] at hstep
      split_ifs at hstep
      cases hstep
      exact h fr (List.mem_cons_of_mem _ hfr)
    · simp only [hdrop] at hstep
      split_ifs at hstep
      cases hstep
      rcases List.mem_append.mp hfr with hl | hr
      · rcases List.mem_map.mp (List.mem_reverse.mp hl) with ⟨c, _, rfl⟩
        have hlt : depth + 1 < p.length := by
          have hlen := congrArg List.length hdrop
          simp only [List.length_drop, List.length_cons] at hlen
          omega
        simpa using hlt
      · exact h fr (List.mem_cons_of_mem _ hr)
    · simp only [hdrop] at hstep
      split_ifs at hstep with hidx
      · cases hget : t.get_child_index index k with
        | some ci =>
          simp only [hget] at hstep
          cases hstep
          rcases List.mem_cons.mp hfr with rfl | hfr
          · have hlt : depth + 1 < p.length := by
              have hlen := congrArg List.length hdrop
              simp only [List.length_drop, List.length_cons] at hlen
              omega
            simpa using hlt
          · exact h fr (List.mem_cons_of_mem _ hfr)
        | none =>
          simp only [hget] at hstep
          cases hstep
          exact h fr (List.mem_cons_of_mem _ hfr)

/-- A DFS step from a depth-bounded frontier never panics slicing the
pattern. -/
theorem dfsStep_no_pattern_panic (t : Trie K V) (p : Pattern K)
    (st : List (Nat × Nat)) (h : ∀ fr ∈ st, fr.2 + 1 ≤ p.length) :
    t.dfsStep (some p) st ≠ StepResult.panicPattern := by
  match st with
  | [] => simp [Trie.dfsStep]
  | (index, depth) :: rest =>
    have hd : depth + 1 ≤ p.length := h (index, depth) (List.mem_cons_self _ _)
    rw [Trie.dfsStep, if_pos hd]
    rcases hdrop : p.drop (depth + 1) with _ | ⟨q | k, tail⟩
    · simp only [hdrop]
      split_ifs <;> simp
    · simp only [hdrop]
      split_ifs <;> simp
    · simp only [hdrop]
      split_ifs
      · cases hg : t.get_child_index index k <;> simp [hg]
      · simp

/-- Every frontier reachable from a depth-bounded frontier stays
depth-bounded. -/
theorem dfsTrace_preserves_depth (t : Trie K V) (p : Pattern K) :
    ∀ (n : Nat) (st : List (Nat × Nat)),
      (∀ fr ∈ st, fr.2 + 1 ≤ p.length) →
      ∀ fr ∈ t.dfsTrace (some p) n st, fr.2 + 1 ≤ p.length := by
  intro n
  induction n with
  | zero => intro st h; simpa [Trie.dfsTrace] using h
  | succ m ih =>
    intro st h
    rw [Trie.dfsTrace]
    cases hstep : t.dfsStep (some p) st with
    | yield i st' => exact ih st' (dfsStep_preserves_depth t p st h i st' hstep)
    | exhausted => exact h
    | panicPattern => exact h
    | panicArena => exact h

/-- A frame already at the final pattern depth expands no children: the
step yields the node and leaves exactly the remaining frontier. -/
theorem dfsStep_final_depth (t : Trie K V) (p : Pattern K)
    (i d : Nat) (rest : List (Nat × Nat)) (hd : d + 1 = p.length) :
    t.dfsStep (some p) ((i, d) :: rest)
      = if i < t.nodes.length then StepResult.yield i rest
        else StepResult.panicArena := by
  rw [Trie.dfsStep, if_pos (le_of_eq hd)]
  have hdrop : p.drop (d + 1) = [] := by
    rw [hd]; exact List.drop_length p
  simp only [hdrop]

end DfsDepth

/-! ## Claim theorems (concrete evaluations) -/

/-- C1: refuted on the source.  Pushing the sequence `[0]` with cost 1 and
then again with cost 2, `Trie::update_min_descendent` (whose guard
`current_value < value` overwrites with the larger value) leaves every node
of the inserted path holding the *maximum* 2 instead of the minimum 1, and
the root's aggregate is never updated at all (`Trie::push` only updates the
nodes strictly below the root). -/
theorem c1_push_updates_aggregate_to_max :
    (((Trie.new.push [0] 1).push [0] 2 : Trie Nat Nat).nodeAt 1).min_descendent = some 2
    ∧ (((Trie.new.push [0] 1).push [0] 2 : Trie Nat Nat).nodeAt 2).min_descendent = some 2
    ∧ (((Trie.new.push [0] 1).push [0] 2 : Trie Nat Nat).nodeAt 0).min_descendent = none
    ∧ min 1 2 = 1 := by
  decide

/-- C2: refuted on the source.  With sequences `[0] ↦ 5`, `[1,2] ↦ 1` and
`[1,3] ↦ 10` inserted, the aggregates kept by `update_min_descendent` are
maxima, so they are not lower bounds on the costs below: the best-first
traversal `iter_values_ordered` yields the costs 5, 1, 10 — not
non-decreasing. -/
theorem c2_ordered_traversal_not_monotone :
    (((Trie.new.push [0] 5).push [1, 2] 1).push [1, 3] 10 : Trie Nat Nat).iter_values_ordered
        none 20
      = some [([0], some 5), ([1, 2], some 1), ([1, 3], some 10)]
    ∧ ¬ List.Chain' (fun a b => a ≤ b) [5, 1, 10] := by
  refine ⟨by decide, fun h => ?_⟩
  have h51 : (5 : Nat) ≤ 1 := List.chain'_cons.mp h |>.1
  omega

/-- C3: refuted on the source.  Pushing the sequence `[0]` with costs 1 and
then 2, `Trie::get` afterwards returns `some 2` — the maximum ever
inserted, not the minimum `min 1 2 = 1` the claim requires. -/
theorem c3_get_returns_max_not_min :
    ((Trie.new.push [0] 1).push [0] 2 : Trie Nat Nat).get [0] = some 2
    ∧ min 1 2 = 1 := by
  decide

/-- C4: refuted on the source.  The compiled length-2 pattern
`[Start, Any, Any, End]` matches the stored sequence `[0]` of length 1:
under a wildcard constraint the traversal pushes *all* children, including
the `End` sentinel of a shorter stored sequence, and every traversed `End`
node is reported as a match. -/
theorem c4_pattern_yields_shorter_sequence :
    (Trie.new.push [0] 1 : Trie Nat Nat).iter_values_unordered
        (some [some Key.Start, none, none, some Key.End]) 10
      = some [([0], some 1)]
    ∧ ([some Key.Start, none, none, some Key.End] : Pattern Nat).length = 2 + 2
    ∧ ([0] : List Nat).length = 1 := by
  decide

/-- C7: the query half holds (an empty prefix tree answers `NotFound`, the
spec's `Unknown`, on any symbol), but the traversal half is refuted on the
source: `Trie::new` creates an arena with no nodes while
`TrieDfsTraversal::from_index` still seeds the stack with index 0, so the
first `next()` call indexes `nodes[0]` of an empty arena and panics instead
of yielding an empty sequence. -/
theorem c7_empty_structure :
    (PrefixTree.empty : PrefixTree Char Unit).get ['a'] = QueryResult.NotFound
    ∧ (Trie.new : Trie Nat Nat).dfsRun none 5 [(0, 0)] = RunOutcome.panicked := by
  decide

/-- C5: confirmed.  Inserting only `"car"`, the query distinguishes the
known prefix `"ca"` (`Prefix`, the spec's `KnownPrefix`), the absent
extension `"care"` (`NotFound`, the spec's `Unknown`) and the stored word
`"car"` (`Value`, the spec's `Found`); in general `Node::get` walks from
the root consuming exactly the input symbols and classifies the outcome as
the spec describes, never conflating a failed walk with a valueless
node. -/
theorem c5_three_way_query {K V : Type} [DecidableEq K] :
    (PrefixTree.empty.set ['c', 'a', 'r'] ()).get ['c', 'a'] = QueryResult.Prefix
    ∧ (PrefixTree.empty.set ['c', 'a', 'r'] ()).get ['c', 'a', 'r', 'e']
        = QueryResult.NotFound
    ∧ (PrefixTree.empty.set ['c', 'a', 'r'] ()).get ['c', 'a', 'r']
        = QueryResult.Value ()
    ∧ ∀ (n : PNode K V) (keys : List K),
        n.get keys = queryClassify (queryWalkSpec n keys) := by
  refine ⟨by decide, by decide, by decide, ?_⟩
  intro n keys
  induction keys generalizing n with
  | nil =>
    simp only [PNode.get, queryWalkSpec, queryClassify]
  | cons k ks ih =>
    simp only [PNode.get, queryWalkSpec]
    cases hf : n.childNodes.find? (fun c => decide (c.prefix_component = some k)) with
    | none => simp [queryClassify]
    | some child => exact ih child

/-- C10: confirmed.  Querying the empty key on any `PrefixTree` node
reports the value stored at that node when one exists and `Prefix`
otherwise — never `NotFound`; consequently `contains_prefix` of the empty
string is true on every `StringPrefixTree`, the empty one included. -/
theorem c10_empty_key_never_notfound {K V : Type} [DecidableEq K] :
    (∀ (n : PNode K V),
      (PrefixTree.mk n).get []
        = (match n.value with
            | some v => QueryResult.Value v
            | none => QueryResult.Prefix))
    ∧ (∀ (sp : StringPrefixTree), sp.containsPrefix [] = true)
    ∧ StringPrefixTree.empty.containsPrefix [] = true := by
  refine ⟨?_, ?_, by decide⟩
  · intro n
    cases n with
    | mk c v cs => cases v <;> rfl
  · intro sp
    obtain ⟨⟨n⟩⟩ := sp
    cases n with
    | mk c v cs =>
      cases v <;> rfl

/-- C8: confirmed.  For every trie and every non-empty pattern, every
frontier reachable by the DFS traversal from the initial frame `(0, 0)`
keeps each frame's depth `d` with `d + 1` at most the pattern length, so
the slice `&p[depth + 1..]` taken by `next()` is always in bounds (the
step never panics on the pattern), and a frame already at the final
pattern depth expands no children — its step pops it and leaves exactly
the remaining frontier. -/
theorem c8_dfs_pattern_depth_bounded {K V : Type} [DecidableEq K]
    (t : Trie K V) (p : Pattern K) (n : Nat) (hp : p ≠ []) :
    (∀ fr ∈ t.dfsTrace (some p) n [(0, 0)], fr.2 + 1 ≤ p.length)
    ∧ t.dfsStep (some p) (t.dfsTrace (some p) n [(0, 0)]) ≠ StepResult.panicPattern
    ∧ ∀ i d rest, t.dfsTrace (some p) n [(0, 0)] = (i, d) :: rest →
        d + 1 = p.length →
        t.dfsStep (some p) ((i, d) :: rest)
          = if i < t.nodes.length then StepResult.yield i rest
            else StepResult.panicArena := by
  have hinit : ∀ fr ∈ ([((0 : Nat), (0 : Nat))] : List (Nat × Nat)),
      fr.2 + 1 ≤ p.length := by
    intro fr hfr
    rcases List.mem_singleton.mp hfr with rfl
    simpa using List.length_pos.mpr hp
  have hgood := dfsTrace_preserves_depth t p n [(0, 0)] hinit
  refine ⟨hgood, dfsStep_no_pattern_panic t p _ hgood, ?_⟩
  intro i d rest _ hd
  exact dfsStep_final_depth t p i d rest hd

/-- Witness for C8 at a concrete trie, pattern and step count. -/
theorem c8_dfs_pattern_depth_bounded_witness :
    ([some Key.Start, some Key.End] : Pattern Nat) ≠ []
    ∧ ((∀ fr ∈ (Trie.new : Trie Nat Nat).dfsTrace
          (some [some Key.Start, some Key.End]) 2 [(0, 0)],
          fr.2 + 1 ≤ ([some Key.Start, some Key.End] : Pattern Nat).length)
      ∧ (Trie.new : Trie Nat Nat).dfsStep (some [some Key.Start, some Key.End])
          ((Trie.new : Trie Nat Nat).dfsTrace
            (some [some Key.Start, some Key.End]) 2 [(0, 0)])
          ≠ StepResult.panicPattern
      ∧ ∀ i d rest,
          (Trie.new : Trie Nat Nat).dfsTrace
            (some [some Key.Start, some Key.End]) 2 [(0, 0)] = (i, d) :: rest →
          d + 1 = ([some Key.Start, some Key.End] : Pattern Nat).length →
          (Trie.new : Trie Nat Nat).dfsStep (some [some Key.Start, some Key.End])
            ((i, d) :: rest)
            = if i < (Trie.new : Trie Nat Nat).nodes.length then
                StepResult.yield i rest
              else StepResult.panicArena) :=
  ⟨by decide,
    c8_dfs_pattern_depth_bounded (Trie.new : Trie Nat Nat)
      [some Key.Start, some Key.End] 2 (by decide)⟩

/-- C9: confirmed.  For every trie built by one or more pushes, `get s`
answers `some` exactly when `s` itself was pushed as a complete sequence
(the walk of `map Internal s ++ [End]` succeeds); in particular a proper
prefix of a stored sequence that was not itself pushed gets `none`, with
no prefix indication of any kind. -/
theorem c9_get_iff_pushed {K V : Type} [DecidableEq K] [LinearOrder V]
    (op : List K × V) (ops : List (List K × V)) (s : List K) :
    (((Trie.new : Trie K V).pushAll (op :: ops)).get s).isSome
      = decide (s ∈ (op :: ops).map Prod.fst) := by
  obtain ⟨hs1, hm1⟩ := push_inv (Trie.new : Trie K V) op.1 op.2 (Or.inl rfl)
  obtain ⟨hS, hM, hC⟩ := pushAll_follow_char ops
    ((Trie.new : Trie K V).push op.1 op.2) [op.1] hs1 hm1
    (first_push_char op.1 op.2)
  rw [pushAll_cons, get_isSome_eq _ hS hM s]
  have hiff := hC s
  cases hf : (((Trie.new : Trie K V).push op.1 op.2).pushAll ops).follow 0
      (toKeys s) with
  | some i =>
    have hmem : s ∈ [op.1] ∨ s ∈ ops.map Prod.fst := hiff.mp ⟨i, hf⟩
    have hmem' : s ∈ (op :: ops).map Prod.fst := by
      rw [List.map_cons]
      rcases hmem with h | h
      · rcases List.mem_singleton.mp h with rfl
        exact List.mem_cons_self _ _
      · exact List.mem_cons_of_mem _ h
    rw [decide_eq_true hmem']
    rfl
  | none =>
    have hnmem : ¬(s ∈ [op.1] ∨ s ∈ ops.map Prod.fst) := by
      rintro hm
      obtain ⟨i, hi⟩ := hiff.mpr hm
      rw [hf] at hi
      cases hi
    have hmem' : s ∉ (op :: ops).map Prod.fst := by
      rw [List.map_cons]
      intro hmem
      rcases List.mem_cons.mp hmem with rfl | h
      · exact hnmem (Or.inl (List.mem_singleton.mpr rfl))
      · exact hnmem (Or.inr h)
    rw [decide_eq_false hmem']
    rfl

/-- C6: confirmed.  Re-inserting a sequence-cost pair that was inserted at
some earlier point (with arbitrary other insertions before and after)
changes neither the node count nor the set of stored sequences reachable
through `get`: every find along the walk succeeds, so only aggregates are
rewritten and no node is created. -/
theorem c6_idempotent_reinsertion {K V : Type} [DecidableEq K]
    [LinearOrder V] (ops1 ops2 : List (List K × V)) (s : List K) (v : V)
    (s' : List K) :
    ((((((Trie.new : Trie K V).pushAll ops1).push s v).pushAll ops2).push s v).nodes.length
      = ((((Trie.new : Trie K V).pushAll ops1).push s v).pushAll ops2).nodes.length)
    ∧ ((((((Trie.new : Trie K V).pushAll ops1).push s v).pushAll ops2).push s v).get s').isSome
      = (((((Trie.new : Trie K V).pushAll ops1).push s v).pushAll ops2).get s').isSome := by
  have hor0 := pushAll_inv ops1 (Trie.new : Trie K V) (Or.inl rfl)
  obtain ⟨hs1, hm1⟩ :=
    push_inv ((Trie.new : Trie K V).pushAll ops1) s v hor0
  obtain ⟨e, he⟩ := push_self ((Trie.new : Trie K V).pushAll ops1) s v
    (hor0.imp_right And.left)
  have hper : ((((Trie.new : Trie K V).pushAll ops1).push s v).pushAll
      ops2).follow 0 (toKeys s) = some e :=
    pushAll_persist ops2 _ hs1 hm1 he
  obtain ⟨hS, hM⟩ := pushAll_inv2 ops2 _ hs1 hm1
  have hne : ((((Trie.new : Trie K V).pushAll ops1).push s v).pushAll
      ops2).nodes ≠ [] := by
    have := hS.pos
    intro hemp
    rw [hemp] at this
    simp at this
  have hshape : sameShape
      (((((Trie.new : Trie K V).pushAll ops1).push s v).pushAll ops2).push s v)
      ((((Trie.new : Trie K V).pushAll ops1).push s v).pushAll ops2) := by
    rw [push_eq_pushAux _ s v hne]
    exact pushAux_all_found_shape v (toKeys s) _ 0 e hper
  obtain ⟨hS', hM'⟩ := push_inv _ s v (Or.inr ⟨hS, hM⟩)
  refine ⟨hshape.1, ?_⟩
  rw [get_isSome_eq _ hS' hM' s', get_isSome_eq _ hS hM s',
    follow_shape hshape (toKeys s') 0]

end NytGames
